import Mathlib

/-!
Verification of the chunking / vector-index / reranking pipeline
(`document_processor.py`, `index_manager.py`, `reranking_service.py`).

Texts are modelled as `List Char` (Python `str`), numbers carried by the
pipeline as `ℚ` (Python floats are IEEE doubles; the claims under study do
not depend on rounding, only on comparisons, so exact rationals are used),
Python `None` as `Option`, and external effects (HTTP calls to the judge
LLM, the file system) as explicit parameters describing their outcome.
-/

/-! ## Reranking service (`reranking_service.py`) -/

/-- Outcome of the judge-LLM call (`_rerank_with_local_llm` /
`_rerank_with_deepseek`): either the reply text, or one of the exception
kinds that `rerank_chunks` catches. -/
inductive RerankFault where
  | timeout
  | httpFault
  | requestFault
  | importFault
  | valueFault
  | unexpected
  deriving DecidableEq

/-- The judge backend, abstracted: given the effective provider name it
either returns the reply content or raises. -/
abbrev Judge := String → Except RerankFault (List Char)

/-- Default provider (`RERANK_PROVIDER` env variable defaulting to "local"). -/
def DEFAULT_PROVIDER : String := "local"

/-- Provider resolution at the top of `rerank_chunks`: `None` falls back to
the default, unknown names fall back to `"local"`. -/
def effective_provider (provider : Option String) : String :=
  let p := provider.getD DEFAULT_PROVIDER
  if p = "local" ∨ p = "deepseek" then p else "local"

/-- Value of a digit string (`int(num_str)` on a run of digits). -/
def digitsToNat (ds : List Char) : Nat :=
  ds.foldl (fun n c => 10 * n + (c.toNat - '0'.toNat)) 0

/-- Maximal digit runs of a string, left to right, with the digits of the
current partially-read run (reversed) as accumulator.  Models
`re.findall(r'\d+', content)`. -/
def digitRuns : List Char → List Char → List (List Char)
  | [], cur => if cur = [] then [] else [cur.reverse]
  | c :: rest, cur =>
    if c.isDigit then digitRuns rest (c :: cur)
    else if cur = [] then digitRuns rest []
    else cur.reverse :: digitRuns rest []

/-- All integer literals appearing in the judge's reply, in order
(`re.findall(r'\d+', content)` each converted with `int`). -/
def extractNumbers (s : List Char) : List Nat :=
  (digitRuns s []).map digitsToNat

/-- The parsing loop of `rerank_chunks` over the extracted integers:
`none` models the early `return []` on the zero sentinel, otherwise the
accumulated 0-based indices (first occurrence wins, only `1 ≤ num ≤ n`
kept). -/
def selectIndices : List Nat → Nat → List Nat → Option (List Nat)
  | [], _, acc => some acc
  | num :: rest, n, acc =>
    if num = 0 then none
    else if 1 ≤ num ∧ num ≤ n then
      if num - 1 ∈ acc then selectIndices rest n acc
      else selectIndices rest n (acc ++ [num - 1])
    else selectIndices rest n acc

/-- `rerank_chunks(query, chunks, max_chunks, provider)`.  The chunk dicts
are never inspected by the control flow, so their type is a parameter; the
judge call (the only effect) is the `judge` parameter.  Every caught
exception arm of the Python function returns `chunks` unchanged, which the
single `.error` arm models. -/
def rerank_chunks {α : Type} (chunks : List (α × ℚ)) (max_chunks : Option Nat)
    (provider : Option String) (judge : Judge) : List (α × ℚ) :=
  if chunks.isEmpty then []
  else
    match judge (effective_provider provider) with
    | .error _ => chunks
    | .ok content =>
      match selectIndices (extractNumbers content) chunks.length [] with
      | none => []
      | some selected =>
        if selected.isEmpty then chunks
        else
          match max_chunks with
          | none =>
            (selected.filter (fun i => decide (i < chunks.length))).filterMap
              (fun i => chunks[i]?)
          | some m =>
            ((selected.filter (fun i => decide (i < chunks.length))).filterMap
              (fun i => chunks[i]?)).take m

theorem selectIndices_of_no_usable (nums : List Nat) (n : Nat) :
    ∀ acc, 0 ∉ nums → (∀ k ∈ nums, ¬(1 ≤ k ∧ k ≤ n)) →
      selectIndices nums n acc = some acc := by
  induction nums with
  | nil => intro acc _ _; rfl
  | cons num rest ih =>
    intro acc h0 hk
    have hnum0 : num ≠ 0 := by
      intro h; exact h0 (h ▸ List.mem_cons_self num rest)
    have hnumr : ¬(1 ≤ num ∧ num ≤ n) := hk num (List.mem_cons_self num rest)
    simp only [selectIndices, if_neg hnum0, if_neg hnumr]
    exact ih acc (fun h => h0 (List.mem_cons_of_mem _ h))
      (fun k hkmem => hk k (List.mem_cons_of_mem _ hkmem))

theorem selectIndices_of_zero (nums : List Nat) (n : Nat) :
    ∀ acc, 0 ∈ nums → selectIndices nums n acc = none := by
  induction nums with
  | nil => intro acc h; cases h
  | cons num rest ih =>
    intro acc h0
    by_cases hz : num = 0
    · simp [selectIndices, hz]
    · have hmem : 0 ∈ rest := by
        cases h0 with
        | head => exact absurd rfl hz
        | tail _ h => exact h
      simp only [selectIndices, if_neg hz]
      by_cases hr : 1 ≤ num ∧ num ≤ n
      · by_cases hd : num - 1 ∈ acc
        · simp [hr, hd, ih _ hmem]
        · simp [hr, hd, ih _ hmem]
      · simp [hr, ih _ hmem]

/-- C1 (corrected): if the judge call raises, or the reply contains no
integer in `[1, N]` and also does not contain the zero sentinel, then
`rerank_chunks` returns exactly the input candidate list. -/
theorem rerank_fallback_passthrough {α : Type} (chunks : List (α × ℚ))
    (max_chunks : Option Nat) (provider : Option String) (judge : Judge)
    (hne : chunks ≠ [])
    (hfail : (∃ e, judge (effective_provider provider) = .error e) ∨
      (∃ content, judge (effective_provider provider) = .ok content ∧
        0 ∉ extractNumbers content ∧
        ∀ k ∈ extractNumbers content, ¬(1 ≤ k ∧ k ≤ chunks.length))) :
    rerank_chunks chunks max_chunks provider judge = chunks := by
  have hne' : ¬chunks.isEmpty := by
    simpa [List.isEmpty_iff] using hne
  rcases hfail with ⟨e, he⟩ | ⟨content, hok, h0, hk⟩
  · simp [rerank_chunks, hne', he]
  · simp [rerank_chunks, hne', hok,
      selectIndices_of_no_usable (extractNumbers content) chunks.length [] h0 hk]

/-- C1 witness: concrete pass-through on a judge HTTP error. -/
theorem rerank_fallback_passthrough_witness :
    rerank_chunks [((0 : Nat), (1 : ℚ))] none none
      (fun _ => .error RerankFault.httpFault) = [((0 : Nat), (1 : ℚ))] :=
  rerank_fallback_passthrough _ _ _ _ (by simp)
    (Or.inl ⟨RerankFault.httpFault, rfl⟩)

/-- C1 counterexample: a judge reply of `"0"` contains no integer in
`[1, N]`, yet `rerank_chunks` returns the empty list rather than the
input candidate list — so the claim as stated fails on the code. -/
theorem rerank_fallback_counterexample :
    (∀ k ∈ extractNumbers ['0'], ¬(1 ≤ k ∧ k ≤ 1)) ∧
    rerank_chunks [((0 : Nat), (1 : ℚ))] none none (fun _ => .ok ['0']) = [] ∧
    [((0 : Nat), (1 : ℚ))] ≠ ([] : List (Nat × ℚ)) := by
  refine ⟨by decide, ?_, by simp⟩
  rfl

/-- C9: whenever the integer `0` appears among the integer literals
extracted from the judge's reply, `rerank_chunks` on a non-empty candidate
list returns the empty list, regardless of any other integers present. -/
theorem rerank_zero_sentinel {α : Type} (chunks : List (α × ℚ))
    (max_chunks : Option Nat) (provider : Option String) (judge : Judge)
    (content : List Char) (hne : chunks ≠ [])
    (hok : judge (effective_provider provider) = .ok content)
    (h0 : 0 ∈ extractNumbers content) :
    rerank_chunks chunks max_chunks provider judge = [] := by
  have hne' : ¬chunks.isEmpty := by
    simpa [List.isEmpty_iff] using hne
  simp [rerank_chunks, hne', hok,
    selectIndices_of_zero (extractNumbers content) chunks.length [] h0]

/-- C9 witness: reply "3, 0, 2" on a one-candidate list yields `[]`. -/
theorem rerank_zero_sentinel_witness :
    rerank_chunks [((7 : Nat), (1 : ℚ))] none none
      (fun _ => .ok ['3', ',', ' ', '0', ',', ' ', '2']) = [] :=
  rerank_zero_sentinel _ _ _ _ ['3', ',', ' ', '0', ',', ' ', '2']
    (by simp) rfl (by decide)

theorem selectIndices_result {nums : List Nat} {n : Nat} {acc selected : List Nat} :
    selectIndices nums n acc = some selected →
      ∀ i ∈ selected, i ∈ acc ∨ i < n := by
  induction nums generalizing acc with
  | nil =>
    intro h i hi
    simp only [selectIndices, Option.some.injEq] at h
    exact Or.inl (h ▸ hi)
  | cons num rest ih =>
    intro h i hi
    by_cases hz : num = 0
    · simp [selectIndices, hz] at h
    · simp only [selectIndices, if_neg hz] at h
      by_cases hr : 1 ≤ num ∧ num ≤ n
      · by_cases hd : num - 1 ∈ acc
        · rw [if_pos hr, if_pos hd] at h
          exact ih h i hi
        · rw [if_pos hr, if_neg hd] at h
          rcases ih h i hi with hmem | hlt
          · rcases List.mem_append.1 hmem with hmem | hmem
            · exact Or.inl hmem
            · refine Or.inr ?_
              have : i = num - 1 := by simpa using hmem
              omega
          · exact Or.inr hlt
      · rw [if_neg hr] at h
        exact ih h i hi

/-- C10: every pair in the output of `rerank_chunks` is an element of the
input candidate list, and an empty candidate list yields an empty output. -/
theorem rerank_subset {α : Type} (chunks : List (α × ℚ)) (max_chunks : Option Nat)
    (provider : Option String) (judge : Judge) :
    (∀ p ∈ rerank_chunks chunks max_chunks provider judge, p ∈ chunks) ∧
    rerank_chunks ([] : List (α × ℚ)) max_chunks provider judge = [] := by
  constructor
  · intro p hp
    unfold rerank_chunks at hp
    split at hp
    · simp at hp
    · split at hp
      · exact hp
      · split at hp
        · simp at hp
        · split at hp
          · exact hp
          · split at hp
            · rcases List.mem_filterMap.1 hp with ⟨i, _, hget⟩
              exact List.getElem?_mem hget
            · rcases List.mem_filterMap.1 (List.mem_of_mem_take hp) with ⟨i, _, hget⟩
              exact List.getElem?_mem hget
  · simp [rerank_chunks]

/-- C10 witness: with a judge reply of "1" on a singleton list, the single
output pair is the input pair. -/
theorem rerank_subset_witness :
    ((5 : Nat), (2 : ℚ)) ∈ [((5 : Nat), (2 : ℚ))] :=
  (rerank_subset [((5 : Nat), (2 : ℚ))] none none (fun _ => .ok ['1'])).1
    ((5 : Nat), (2 : ℚ)) (by decide)

/-! ## Index persistence (`index_manager.py`: `save_index` / `load_index`) -/

/-- A chunk record as stored in the index: the dict fields written by
`document_processor.py` plus the optional embedding vector attached later.
`header_context` is absent on the PDF path, present on the markdown path. -/
structure Doc where
  document : String
  chunk_id : Nat
  text : String
  header_context : Option String
  total_chunks : Nat
  embedding : Option (List ℚ)
  deriving DecidableEq

/-- JSON values as written by `json.dump` / read by `json.load` (numbers as
exact rationals: `json.dump` writes `repr(float)` which round-trips the
stored numeric value exactly). -/
inductive JVal where
  | num (q : ℚ)
  | str (s : String)
  | arr (xs : List JVal)
  | obj (fields : List (String × JVal))

/-- Dict key lookup on a parsed JSON object. -/
def jlookup (fields : List (String × JVal)) (k : String) : Option JVal :=
  (fields.find? (fun p => p.1 = k)).map (·.2)

def jstr : JVal → Option String
  | .str s => some s
  | _ => none

def jnat : JVal → Option Nat
  | .num q => if q.den = 1 ∧ 0 ≤ q.num then some q.num.toNat else none
  | _ => none

def decodeNums : List JVal → Option (List ℚ)
  | [] => some []
  | .num q :: rest => (decodeNums rest).map (q :: ·)
  | _ :: _ => none

def jnums : JVal → Option (List ℚ)
  | .arr xs => decodeNums xs
  | _ => none

/-- JSON encoding of one chunk record, with exactly the keys the record
carries (optional keys omitted when absent). -/
def docToJson (d : Doc) : JVal :=
  JVal.obj (
    [("document", JVal.str d.document),
     ("chunk_id", JVal.num d.chunk_id),
     ("text", JVal.str d.text)]
    ++ (match d.header_context with
        | some h => [("header_context", JVal.str h)]
        | none => [])
    ++ [("total_chunks", JVal.num d.total_chunks)]
    ++ (match d.embedding with
        | some e => [("embedding", JVal.arr (e.map JVal.num))]
        | none => []))

/-- Field-for-field reading of a chunk record back out of its JSON form. -/
def jsonToDoc (j : JVal) : Option Doc :=
  match j with
  | .obj fields =>
    match jlookup fields "document" >>= jstr, jlookup fields "chunk_id" >>= jnat,
          jlookup fields "text" >>= jstr, jlookup fields "total_chunks" >>= jnat with
    | some dname, some cid, some t, some tc =>
      some { document := dname, chunk_id := cid, text := t,
             header_context := jlookup fields "header_context" >>= jstr,
             total_chunks := tc,
             embedding := jlookup fields "embedding" >>= jnums }
    | _, _, _, _ => none
  | _ => none

def decodeDocs : List JVal → Option (List Doc)
  | [] => some []
  | j :: rest =>
    match jsonToDoc j, decodeDocs rest with
    | some d, some ds => some (d :: ds)
    | _, _ => none

/-- Reading the whole persisted collection as chunk records. -/
def jsonToDocs : JVal → Option (List Doc)
  | .arr xs => decodeDocs xs
  | _ => none

/-- The index file at `index_path`: `none` — no file exists; `some none` —
the file exists but reading or parsing it fails; `some (some j)` — the file
exists and parses to the JSON value `j`. -/
abbrev IndexStore := Option (Option JVal)

/-- `save_index(documents, index_path)` on success leaves the serialized
collection on disk (on write failure the Python function re-raises and the
file contents are unspecified; the model describes the successful write). -/
def save_index (documents : List Doc) : IndexStore :=
  some (some (JVal.arr (documents.map docToJson)))

/-- `load_index(index_path)`: `None` when the file does not exist, and —
because the `except` arm also returns `None` — equally `None` when the file
exists but reading or parsing it fails; otherwise the parsed JSON value. -/
def load_index (store : IndexStore) : Option JVal :=
  match store with
  | none => none
  | some none => none
  | some (some j) => some j

theorem decodeNums_roundtrip (e : List ℚ) :
    decodeNums (e.map JVal.num) = some e := by
  induction e with
  | nil => rfl
  | cons q rest ih => simp [decodeNums, ih]

theorem jsonToDoc_roundtrip (d : Doc) : jsonToDoc (docToJson d) = some d := by
  obtain ⟨dname, cid, t, hc, tc, emb⟩ := d
  cases hc <;> cases emb <;>
    simp [docToJson, jsonToDoc, jlookup, List.find?, jstr, jnat, jnums,
      decodeNums_roundtrip, Rat.den_natCast, Rat.num_natCast, Int.toNat_natCast]

theorem decodeDocs_roundtrip (docs : List Doc) :
    decodeDocs (docs.map docToJson) = some docs := by
  induction docs with
  | nil => rfl
  | cons d rest ih => simp [decodeDocs, jsonToDoc_roundtrip d, ih]

/-- C5: loading immediately after saving returns the saved records
field for field — every field present, embedding vectors (exact rationals)
unchanged. -/
theorem save_load_roundtrip (docs : List Doc) :
    (load_index (save_index docs)).bind jsonToDocs = some docs := by
  simp [save_index, load_index, jsonToDocs, decodeDocs_roundtrip]

/-- C7 counterexample: a store whose file exists but fails to read or parse
(`some none ≠ none`) still makes `load_index` return the absent signal
`None` instead of surfacing an error. -/
theorem load_index_failure_counterexample :
    load_index (some none) = none ∧ (some none : IndexStore) ≠ none := by
  exact ⟨rfl, by simp⟩

/-- C7 (corrected): `load_index` returns `None` exactly when the file is
absent OR when the file exists but reading/parsing it fails (the failure is
logged and converted into the absent signal, not surfaced); a parseable
file returns its parsed contents. -/
theorem load_index_none_iff (store : IndexStore) :
    (load_index store = none ↔ store = none ∨ store = some none) ∧
    (∀ j, load_index (some (some j)) = some j) := by
  constructor
  · cases store with
    | none => simp [load_index]
    | some inner => cases inner <;> simp [load_index]
  · intro j; rfl

/-! ## Similarity search (`index_manager.py`: `cosine_similarity`,
`search_relevant_chunks_with_stats`) -/

/-- `cosine_similarity(vec1, vec2)`.  `math.sqrt` computes over IEEE
floats, which exact rationals cannot replicate, so the square-root function
is a parameter `sq`; every theorem below holds for all `sq`, in particular
for the float square root. -/
def cosine_similarity (sq : ℚ → ℚ) (vec1 vec2 : List ℚ) : ℚ :=
  if vec1.length ≠ vec2.length then 0
  else
    let dot_product := (List.zipWith (· * ·) vec1 vec2).sum
    let magnitude1 := sq (vec1.map (fun a => a * a)).sum
    let magnitude2 := sq (vec2.map (fun a => a * a)).sum
    if magnitude1 = 0 ∨ magnitude2 = 0 then 0
    else dot_product / (magnitude1 * magnitude2)

/-- The scoring loop of `search_relevant_chunks_with_stats`: one pass over
the loaded documents, skipping chunks without an embedding, building
`all_similarities` and `filtered_similarities` in document order. -/
def score_docs (sq : ℚ → ℚ) (q : List ℚ) (ms : ℚ) :
    List Doc → List (Doc × ℚ) × List (Doc × ℚ)
  | [] => ([], [])
  | d :: rest =>
    let prev := score_docs sq q ms rest
    match d.embedding with
    | none => prev
    | some emb =>
      let s := cosine_similarity sq q emb
      ((d, s) :: prev.1, if ms ≤ s then (d, s) :: prev.2 else prev.2)

/-- Python's stable `list.sort(key=score, reverse=True)`. -/
def sort_by_score_desc (l : List (Doc × ℚ)) : List (Doc × ℚ) :=
  l.mergeSort (fun a b => decide (b.2 ≤ a.2))

/-- The `stats` dict returned by `search_relevant_chunks_with_stats`. -/
structure SearchStats where
  total_checked : Nat
  total_filtered : Nat
  total_rejected : Nat
  min_similarity : ℚ
  best_similarity : ℚ
  best_filtered_similarity : ℚ
  all_top_results : List (Doc × ℚ)

/-- `search_relevant_chunks_with_stats(query_embedding, index_path, top_k,
min_similarity)`, with the `load_index` outcome (interpreted as chunk
records) passed as `index` and the effective threshold as
`min_similarity`; `none` in the second component models the empty stats
dict returned for a missing or empty index. -/
def search_relevant_chunks_with_stats (sq : ℚ → ℚ) (query_embedding : List ℚ)
    (index : Option (List Doc)) (top_k : Nat) (min_similarity : ℚ) :
    List (Doc × ℚ) × Option SearchStats :=
  match index with
  | none => ([], none)
  | some documents =>
    if documents.isEmpty then ([], none)
    else
      let scored := score_docs sq query_embedding min_similarity documents
      let all_similarities := sort_by_score_desc scored.1
      let filtered_similarities := sort_by_score_desc scored.2
      let top_results := filtered_similarities.take top_k
      (top_results,
        some {
          total_checked := all_similarities.length
          total_filtered := filtered_similarities.length
          total_rejected := all_similarities.length - filtered_similarities.length
          min_similarity := min_similarity
          best_similarity := match all_similarities with | [] => 0 | p :: _ => p.2
          best_filtered_similarity := match top_results with | [] => 0 | p :: _ => p.2
          all_top_results := all_similarities.take top_k })

theorem score_docs_filtered_ge (sq : ℚ → ℚ) (q : List ℚ) (ms : ℚ)
    (docs : List Doc) : ∀ p ∈ (score_docs sq q ms docs).2, ms ≤ p.2 := by
  induction docs with
  | nil => intro p hp; simp [score_docs] at hp
  | cons d rest ih =>
    intro p hp
    cases hemb : d.embedding with
    | none =>
      simp only [score_docs, hemb] at hp
      exact ih p hp
    | some emb =>
      simp only [score_docs, hemb] at hp
      by_cases hs : ms ≤ cosine_similarity sq q emb
      · rw [if_pos hs] at hp
        rcases List.mem_cons.1 hp with h | h
        · rw [h]; exact hs
        · exact ih p h
      · rw [if_neg hs] at hp
        exact ih p hp

theorem score_docs_filtered_subset (sq : ℚ → ℚ) (q : List ℚ) (ms : ℚ)
    (docs : List Doc) :
    ∀ p ∈ (score_docs sq q ms docs).2, p ∈ (score_docs sq q ms docs).1 := by
  induction docs with
  | nil => intro p hp; simp [score_docs] at hp
  | cons d rest ih =>
    intro p hp
    cases hemb : d.embedding with
    | none =>
      simp only [score_docs, hemb] at hp ⊢
      exact ih p hp
    | some emb =>
      simp only [score_docs, hemb] at hp ⊢
      by_cases hs : ms ≤ cosine_similarity sq q emb
      · rw [if_pos hs] at hp
        rcases List.mem_cons.1 hp with h | h
        · exact List.mem_cons.2 (Or.inl h)
        · exact List.mem_cons.2 (Or.inr (ih p h))
      · rw [if_neg hs] at hp
        exact List.mem_cons.2 (Or.inr (ih p hp))

theorem score_docs_all_length (sq : ℚ → ℚ) (q : List ℚ) (ms : ℚ)
    (docs : List Doc) :
    (score_docs sq q ms docs).1.length =
      docs.countP (fun d => d.embedding.isSome) := by
  induction docs with
  | nil => simp [score_docs]
  | cons d rest ih =>
    simp only [score_docs, List.countP_cons]
    cases hemb : d.embedding with
    | none => simp [hemb, ih]
    | some emb => simp [hemb, ih]

/-- C2: on a loadable non-empty index the search returns only pairs scoring
at least the threshold, drawn from the scored pairs; `total_checked` counts
exactly the indexed chunks carrying an embedding, and `total_rejected =
total_checked - total_filtered`. -/
theorem search_postconditions (sq : ℚ → ℚ) (q : List ℚ) (docs : List Doc)
    (top_k : Nat) (ms : ℚ) (hne : docs ≠ []) :
    ((search_relevant_chunks_with_stats sq q (some docs) top_k ms).2).isSome ∧
    (∀ p ∈ (search_relevant_chunks_with_stats sq q (some docs) top_k ms).1,
      ms ≤ p.2) ∧
    (∀ p ∈ (search_relevant_chunks_with_stats sq q (some docs) top_k ms).1,
      p ∈ (score_docs sq q ms docs).1) ∧
    (∀ st, (search_relevant_chunks_with_stats sq q (some docs) top_k ms).2 = some st →
      st.total_checked = docs.countP (fun d => d.embedding.isSome) ∧
      st.total_rejected = st.total_checked - st.total_filtered) := by
  have hne' : ¬docs.isEmpty := by simpa [List.isEmpty_iff] using hne
  refine ⟨?_, ?_, ?_, ?_⟩
  · simp [search_relevant_chunks_with_stats, hne']
  · intro p hp
    simp only [search_relevant_chunks_with_stats, if_neg hne'] at hp
    have hp' : p ∈ sort_by_score_desc (score_docs sq q ms docs).2 :=
      List.mem_of_mem_take hp
    have hp'' : p ∈ (score_docs sq q ms docs).2 := List.mem_mergeSort.1 hp'
    exact score_docs_filtered_ge sq q ms docs p hp''
  · intro p hp
    simp only [search_relevant_chunks_with_stats, if_neg hne'] at hp
    have hp' : p ∈ sort_by_score_desc (score_docs sq q ms docs).2 :=
      List.mem_of_mem_take hp
    have hp'' : p ∈ (score_docs sq q ms docs).2 := List.mem_mergeSort.1 hp'
    exact score_docs_filtered_subset sq q ms docs p hp''
  · intro st hst
    simp only [search_relevant_chunks_with_stats, if_neg hne',
      Option.some.injEq] at hst
    subst hst
    refine ⟨?_, rfl⟩
    simp only [sort_by_score_desc, List.length_mergeSort]
    exact score_docs_all_length sq q ms docs

/-- C2 witness: a one-record index with embedding `[1]`, threshold 0,
`top_k = 1`, and the identity in place of the float square root. -/
theorem search_postconditions_witness :
    ([⟨"d", 0, "t", none, 1, some [1]⟩] : List Doc) ≠ [] ∧
    (((search_relevant_chunks_with_stats id [1]
        (some [⟨"d", 0, "t", none, 1, some [1]⟩]) 1 0).2).isSome ∧
     (∀ p ∈ (search_relevant_chunks_with_stats id [1]
        (some [⟨"d", 0, "t", none, 1, some [1]⟩]) 1 0).1, (0 : ℚ) ≤ p.2) ∧
     (∀ p ∈ (search_relevant_chunks_with_stats id [1]
        (some [⟨"d", 0, "t", none, 1, some [1]⟩]) 1 0).1,
        p ∈ (score_docs id [1] 0 [⟨"d", 0, "t", none, 1, some [1]⟩]).1) ∧
     (∀ st, (search_relevant_chunks_with_stats id [1]
        (some [⟨"d", 0, "t", none, 1, some [1]⟩]) 1 0).2 = some st →
       st.total_checked =
         ([⟨"d", 0, "t", none, 1, some [1]⟩] : List Doc).countP
           (fun d => d.embedding.isSome) ∧
       st.total_rejected = st.total_checked - st.total_filtered)) :=
  ⟨by simp, search_postconditions id [1] [⟨"d", 0, "t", none, 1, some [1]⟩] 1 0 (by simp)⟩

/-- Value the claim asserts for `best_filtered_similarity`: the maximum
score among the scored chunks meeting the threshold, 0 when none does
(stated from the spec's words, for comparison with the code). -/
def bestFilteredSpec (filtered : List (Doc × ℚ)) : ℚ :=
  match filtered.map (fun p => p.2) with
  | [] => 0
  | s :: rest => rest.foldl max s

theorem foldl_max_mem (rest : List ℚ) : ∀ s : ℚ, rest.foldl max s ∈ s :: rest := by
  induction rest with
  | nil => intro s; simp
  | cons r t ih =>
    intro s
    rw [List.foldl_cons]
    rcases List.mem_cons.1 (ih (max s r)) with h | h
    · rcases max_choice s r with hm | hm
      · rw [h, hm]; simp
      · rw [h, hm]; simp
    · simp [h]

theorem le_foldl_max (rest : List ℚ) :
    ∀ s x : ℚ, x ∈ s :: rest → x ≤ rest.foldl max s := by
  induction rest with
  | nil =>
    intro s x hx
    simp at hx
    simp [hx]
  | cons r t ih =>
    intro s x hx
    rw [List.foldl_cons]
    have hbase : max s r ≤ t.foldl max (max s r) := ih (max s r) (max s r) (by simp)
    rcases List.mem_cons.1 hx with h | h
    · subst h
      exact le_trans (le_max_left x r) hbase
    · rcases List.mem_cons.1 h with h' | h'
      · subst h'
        exact le_trans (le_max_right s x) hbase
      · exact ih (max s r) x (List.mem_cons_of_mem _ h')

theorem bestFilteredSpec_is_max (l : List (Doc × ℚ)) (hl : l ≠ []) :
    (∃ y ∈ l, y.2 = bestFilteredSpec l) ∧ ∀ x ∈ l, x.2 ≤ bestFilteredSpec l := by
  cases l with
  | nil => exact absurd rfl hl
  | cons f frest =>
    have hbfs : bestFilteredSpec (f :: frest) =
        (frest.map (fun p => p.2)).foldl max f.2 := rfl
    constructor
    · rw [hbfs]
      rcases List.mem_cons.1 (foldl_max_mem (frest.map (fun p => p.2)) f.2) with h | h
      · exact ⟨f, by simp, h.symm⟩
      · rcases List.mem_map.1 h with ⟨y, hy, hy2⟩
        exact ⟨y, by simp [hy], hy2⟩
    · intro x hx
      rw [hbfs]
      apply le_foldl_max
      rcases List.mem_cons.1 hx with h | h
      · simp [h]
      · exact List.mem_cons_of_mem _ (List.mem_map.2 ⟨x, h, rfl⟩)

theorem sort_head_max (l : List (Doc × ℚ)) (p : Doc × ℚ) (rest : List (Doc × ℚ))
    (h : sort_by_score_desc l = p :: rest) : p ∈ l ∧ ∀ x ∈ l, x.2 ≤ p.2 := by
  have hperm : ∀ x : Doc × ℚ, x ∈ sort_by_score_desc l ↔ x ∈ l := fun x =>
    List.mem_mergeSort
  constructor
  · exact (hperm p).1 (h ▸ List.mem_cons_self p rest)
  · have hsorted := @List.sorted_mergeSort (Doc × ℚ)
      (fun a b => decide (b.2 ≤ a.2))
      (fun a b c hab hbc => by
        simp only [decide_eq_true_eq] at hab hbc ⊢
        exact le_trans hbc hab)
      (fun a b => by simp [le_total]) l
    rw [sort_by_score_desc] at h
    rw [h] at hsorted
    intro x hx
    have hx' : x ∈ p :: rest := by
      have := (hperm x).2 hx
      rw [sort_by_score_desc, h] at this
      exact this
    rcases List.mem_cons.1 hx' with h' | h'
    · rw [h']
    · have := (List.pairwise_cons.1 hsorted).1 x h'
      simpa using this

/-- C6 counterexample: one chunk scoring 1 against threshold 0 but
`top_k = 0`: the code reports `best_filtered_similarity = 0` while the
maximum score among threshold-passing chunks is 1. -/
theorem best_filtered_counterexample :
    ((search_relevant_chunks_with_stats id [1]
        (some [⟨"d", 0, "t", none, 1, some [1]⟩]) 0 0).2.map
      (fun st => st.best_filtered_similarity)) = some 0 ∧
    bestFilteredSpec
      (score_docs id [1] 0 [⟨"d", 0, "t", none, 1, some [1]⟩]).2 = 1 ∧
    (0 : ℚ) ≠ 1 := by
  refine ⟨?_, ?_, by norm_num⟩
  · norm_num [search_relevant_chunks_with_stats, score_docs, cosine_similarity,
      sort_by_score_desc, List.mergeSort]
  · norm_num [bestFilteredSpec, score_docs, cosine_similarity]

/-- C6 (corrected): `best_filtered_similarity` is the score of the first
returned result — which, whenever the returned list is non-empty (so in
particular `top_k ≥ 1`), equals the maximum score among the scored chunks
meeting the threshold — and 0 whenever the returned list is empty
(including every search with `top_k = 0`). -/
theorem best_filtered_amended (sq : ℚ → ℚ) (q : List ℚ) (docs : List Doc)
    (top_k : Nat) (ms : ℚ) (hne : docs ≠ []) :
    ((search_relevant_chunks_with_stats sq q (some docs) top_k ms).1 = [] →
      ((search_relevant_chunks_with_stats sq q (some docs) top_k ms).2.map
        (fun st => st.best_filtered_similarity)) = some 0) ∧
    ((search_relevant_chunks_with_stats sq q (some docs) top_k ms).1 ≠ [] →
      ((search_relevant_chunks_with_stats sq q (some docs) top_k ms).2.map
        (fun st => st.best_filtered_similarity)) =
        some (bestFilteredSpec (score_docs sq q ms docs).2)) := by
  have hne' : ¬docs.isEmpty := by simpa [List.isEmpty_iff] using hne
  constructor
  · intro hempty
    simp only [search_relevant_chunks_with_stats, if_neg hne'] at hempty
    simp only [search_relevant_chunks_with_stats, if_neg hne', Option.map_some',
      Option.some.injEq]
    rw [hempty]
  · intro hnonempty
    simp only [search_relevant_chunks_with_stats, if_neg hne'] at hnonempty ⊢
    cases htake : (sort_by_score_desc (score_docs sq q ms docs).2).take top_k with
    | nil => exact absurd htake hnonempty
    | cons p tl =>
      simp only [Option.map_some', htake, Option.some.injEq]
      have hsortne : sort_by_score_desc (score_docs sq q ms docs).2 ≠ [] := by
        intro hnil
        rw [hnil, List.take_nil] at htake
        exact List.noConfusion htake
      cases hsort : sort_by_score_desc (score_docs sq q ms docs).2 with
      | nil => exact absurd hsort hsortne
      | cons p' tl' =>
        have hp : p = p' := by
          cases top_k with
          | zero => simp at htake
          | succ k =>
            rw [hsort] at htake
            simp only [List.take_succ_cons] at htake
            exact ((List.cons.injEq _ _ _ _ ▸ htake).1).symm
        subst hp
        have hmax := sort_head_max (score_docs sq q ms docs).2 p tl' hsort
        have hfne : (score_docs sq q ms docs).2 ≠ [] := by
          intro hnil
          rw [sort_by_score_desc, hnil] at hsort
          simp [List.mergeSort] at hsort
        have hspec := bestFilteredSpec_is_max (score_docs sq q ms docs).2 hfne
        rcases hspec.1 with ⟨y, hy, hy2⟩
        exact le_antisymm (hspec.2 p hmax.1) (hy2 ▸ hmax.2 y hy)

/-- C6 witness: concrete search with `top_k = 1`. -/
theorem best_filtered_amended_witness :
    ([⟨"d", 0, "t", none, 1, some [1]⟩] : List Doc) ≠ [] ∧
    (((search_relevant_chunks_with_stats id [1]
        (some [⟨"d", 0, "t", none, 1, some [1]⟩]) 1 0).1 = [] →
      ((search_relevant_chunks_with_stats id [1]
        (some [⟨"d", 0, "t", none, 1, some [1]⟩]) 1 0).2.map
        (fun st => st.best_filtered_similarity)) = some 0) ∧
    ((search_relevant_chunks_with_stats id [1]
        (some [⟨"d", 0, "t", none, 1, some [1]⟩]) 1 0).1 ≠ [] →
      ((search_relevant_chunks_with_stats id [1]
        (some [⟨"d", 0, "t", none, 1, some [1]⟩]) 1 0).2.map
        (fun st => st.best_filtered_similarity)) =
        some (bestFilteredSpec
          (score_docs id [1] 0 [⟨"d", 0, "t", none, 1, some [1]⟩]).2))) :=
  ⟨by simp, best_filtered_amended id [1] [⟨"d", 0, "t", none, 1, some [1]⟩] 1 0 (by simp)⟩

/-! ## Streaming chunk splitter (`document_processor.py`:
`split_text_into_chunks_streaming`) -/

/-- Python strings as character lists. -/
abbrev PyStr := List Char

/-- The whitespace class of Python's `str.strip()` (ASCII part; the
documents in play contain no exotic Unicode space characters). -/
def isPySpace (c : Char) : Bool :=
  c = ' ' ∨ c = '\t' ∨ c = '\n' ∨ c = '\r' ∨ c = Char.ofNat 11 ∨ c = Char.ofNat 12

/-- `s.strip()`. -/
def pyStrip (s : PyStr) : PyStr :=
  ((s.dropWhile isPySpace).reverse.dropWhile isPySpace).reverse

/-- `s[a:b]` for `0 ≤ a ≤ b`. -/
def pySlice (s : PyStr) (a b : Nat) : PyStr := (s.take b).drop a

/-- Whether `p` occurs in `s` at position `i`. -/
def matchesAt (s p : PyStr) (i : Nat) : Bool :=
  decide (pySlice s i (i + p.length) = p)

/-- `s.rfind(p, a, b)`: the largest start position of an occurrence of `p`
inside `s[a:b]`, `none` for Python's `-1`. -/
def pyRfind (s p : PyStr) (a b : Nat) : Option Nat :=
  ((List.range b).filter
    (fun i => decide (a ≤ i) && decide (i + p.length ≤ b) && matchesAt s p i)).getLast?

/-- The sentence delimiters `['. ', '! ', '? ', '\n\n']`, in priority order. -/
def punctuations : List PyStr :=
  [['.', ' '], ['!', ' '], ['?', ' '], ['\n', '\n']]

/-- The backward delimiter search of the splitting loop: the first
delimiter (in priority order) found in `[start, e)` moves `end` to just
after it. -/
def adjust_end (buf : PyStr) (start e : Nat) : List PyStr → Nat
  | [] => e
  | p :: ps =>
    match pyRfind buf p start e with
    | some i => i + p.length
    | none => adjust_end buf start e ps

/-- `new_start = end - overlap`, forced to `start + chunk_size` when that
makes no forward progress (natural subtraction truncates at 0 exactly like
Python's negative values, which also fail the `> start` test). -/
def next_start (S O start e : Nat) : Nat :=
  if e - O ≤ start then start + S else e - O

/-- The `while start < len(text_buffer)` loop, with the iteration budget of
the 1000-pass safety fuse as explicit fuel (the Python loop `break`s when
the budget is exhausted, returning the chunks and cursor reached so far). -/
def splitLoop (buf : PyStr) (S O : Nat) :
    Nat → Nat → List PyStr → List PyStr → List PyStr × Nat
  | 0, start, chunks, _ => (chunks, start)
  | fuel + 1, start, chunks, seen =>
    if start < buf.length then
      let e0 := start + S
      let e := if e0 < buf.length then adjust_end buf start e0 punctuations else e0
      let chunk := pyStrip (pySlice buf start e)
      if chunk ≠ [] ∧ chunk ∉ seen then
        splitLoop buf S O fuel (next_start S O start e) (chunks ++ [chunk]) (chunk :: seen)
      else
        splitLoop buf S O fuel (next_start S O start e) chunks seen
    else (chunks, start)

/-- `split_text_into_chunks_streaming(text_buffer, chunk_size, overlap,
last_chunk_end)`.  The starting position `max(0, last_chunk_end - overlap)
if last_chunk_end > 0 else 0` is natural subtraction. -/
def split_text_into_chunks_streaming (text_buffer : PyStr)
    (chunk_size overlap last_chunk_end : Nat) : List PyStr × Nat :=
  if text_buffer.length ≤ chunk_size ∧ last_chunk_end = 0 then
    ((if pyStrip text_buffer ≠ [] then [text_buffer] else []), text_buffer.length)
  else
    let res := splitLoop text_buffer chunk_size overlap 1000
      (last_chunk_end - overlap) [] []
    (res.1, if res.1 ≠ [] then res.2 + overlap else text_buffer.length)

/-- C3 counterexample: buffer `"a "` (length 2 ≤ S = 5) with cursor 0: the
single returned chunk is the buffer itself, not its whitespace-trimmed
form `"a"` — the short-buffer path only uses `strip()` for the emptiness
test. -/
theorem split_short_counterexample :
    ['a', ' '].length ≤ 5 ∧
    (split_text_into_chunks_streaming ['a', ' '] 5 0 0).1 = [['a', ' ']] ∧
    pyStrip ['a', ' '] = ['a'] ∧
    [['a', ' ']] ≠ [pyStrip ['a', ' ']] := by decide

/-- C3 (corrected): for a buffer of length ≤ S and cursor 0, the result is
exactly one chunk equal to the buffer itself — untrimmed — (or no chunk at
all when the trimmed buffer is empty), with cursor = buffer length. -/
theorem split_short_buffer (buf : PyStr) (S O : Nat) (hlen : buf.length ≤ S) :
    split_text_into_chunks_streaming buf S O 0 =
      ((if pyStrip buf ≠ [] then [buf] else []), buf.length) := by
  simp [split_text_into_chunks_streaming, hlen]

/-- C3 witness: the short-buffer path on `"a"` with S = 3. -/
theorem split_short_buffer_witness :
    ['a'].length ≤ 3 ∧
    split_text_into_chunks_streaming ['a'] 3 0 0 =
      ((if pyStrip ['a'] ≠ [] then [['a']] else []), ['a'].length) :=
  ⟨by decide, split_short_buffer ['a'] 3 0 (by decide)⟩

theorem splitLoop_exit (buf : PyStr) (S O : Nat) (f start : Nat)
    (chunks seen : List PyStr) (h : ¬ start < buf.length) :
    splitLoop buf S O f start chunks seen = (chunks, start) := by
  cases f with
  | zero => rfl
  | succ f => simp [splitLoop, h]

theorem next_start_progress (S O start e : Nat) (hS : 1 ≤ S) :
    start < next_start S O start e := by
  unfold next_start
  split <;> omega

theorem splitLoop_fuel_irrel (buf : PyStr) (S O : Nat) (hS : 1 ≤ S) :
    ∀ n start chunks seen f₁ f₂, buf.length - start ≤ n →
      buf.length - start ≤ f₁ → buf.length - start ≤ f₂ →
      splitLoop buf S O f₁ start chunks seen = splitLoop buf S O f₂ start chunks seen := by
  intro n
  induction n with
  | zero =>
    intro start chunks seen f₁ f₂ hn _ _
    have h : ¬ start < buf.length := by omega
    rw [splitLoop_exit buf S O f₁ start chunks seen h,
      splitLoop_exit buf S O f₂ start chunks seen h]
  | succ n ih =>
    intro start chunks seen f₁ f₂ hn h1 h2
    by_cases hlt : start < buf.length
    · obtain ⟨g₁, rfl⟩ : ∃ g, f₁ = g + 1 := ⟨f₁ - 1, by omega⟩
      obtain ⟨g₂, rfl⟩ : ∃ g, f₂ = g + 1 := ⟨f₂ - 1, by omega⟩
      simp only [splitLoop, if_pos hlt]
      have hns : start < next_start S O start
          (if start + S < buf.length
            then adjust_end buf start (start + S) punctuations
            else start + S) :=
        next_start_progress S O start _ hS
      have hn' : buf.length - next_start S O start
          (if start + S < buf.length
            then adjust_end buf start (start + S) punctuations
            else start + S) ≤ n := by omega
      by_cases hc : pyStrip (pySlice buf start
          (if start + S < buf.length
            then adjust_end buf start (start + S) punctuations
            else start + S)) ≠ [] ∧
          pyStrip (pySlice buf start
          (if start + S < buf.length
            then adjust_end buf start (start + S) punctuations
            else start + S)) ∉ seen
      · rw [if_pos hc, if_pos hc]
        exact ih _ _ _ g₁ g₂ hn' (by omega) (by omega)
      · rw [if_neg hc, if_neg hc]
        exact ih _ _ _ g₁ g₂ hn' (by omega) (by omega)
    · rw [splitLoop_exit buf S O (f₁) start chunks seen hlt,
        splitLoop_exit buf S O (f₂) start chunks seen hlt]

/-- C8: with `S ≥ 1` and `O < S`, a `new_start = end - O` not exceeding
`start` is forced to `start + S`, the loop position strictly increases on
every iteration, and the splitting loop's result is the same for every
iteration budget covering the buffer — it returns by reaching the natural
exit, independently of the 1000-iteration safety fuse. -/
theorem chunking_terminates (buf : PyStr) (S O start e f₁ f₂ : Nat)
    (chunks seen : List PyStr) (hS : 1 ≤ S) (hO : O < S)
    (h1 : buf.length - start ≤ f₁) (h2 : buf.length - start ≤ f₂) :
    (e - O ≤ start → next_start S O start e = start + S) ∧
    start < next_start S O start e ∧
    splitLoop buf S O f₁ start chunks seen = splitLoop buf S O f₂ start chunks seen :=
  ⟨fun h => by simp [next_start, h],
   next_start_progress S O start e hS,
   splitLoop_fuel_irrel buf S O hS (buf.length - start) start chunks seen f₁ f₂
     le_rfl h1 h2⟩

/-- C8 witness: a 3-character buffer with S = 1, O = 0 and two different
sufficient budgets. -/
theorem chunking_terminates_witness :
    (1 ≤ 1 ∧ 0 < 1 ∧ ['a', 'b', 'c'].length - 0 ≤ 3 ∧ ['a', 'b', 'c'].length - 0 ≤ 4) ∧
    ((2 - 0 ≤ 0 → next_start 1 0 0 2 = 0 + 1) ∧
     0 < next_start 1 0 0 2 ∧
     splitLoop ['a', 'b', 'c'] 1 0 3 0 [] [] = splitLoop ['a', 'b', 'c'] 1 0 4 0 [] []) :=
  ⟨by decide,
   chunking_terminates ['a', 'b', 'c'] 1 0 0 2 3 4 [] [] (by decide) (by decide)
     (by decide) (by decide)⟩

/-! ## Markdown and PDF chunk emission (`document_processor.py`:
`split_markdown_by_headers`, `process_markdown_file`, the PDF batch loop
of `process_documents_from_folder`) -/

/-- Python `content.split('\n')`. -/
def splitOnNl : PyStr → List PyStr
  | [] => [[]]
  | c :: rest =>
    if c = '\n' then [] :: splitOnNl rest
    else
      match splitOnNl rest with
      | [] => [[c]]
      | l :: ls => (c :: l) :: ls

/-- Matching one line against `^(#{1,6})\s+(.+)$`: 1–6 leading `#`, then at
least one whitespace character, then at least one further character; the
captured header text, after the trailing `.strip()`, equals the stripped
remainder after the hashes. -/
def headerMatch (line : PyStr) : Option (Nat × PyStr) :=
  let h := (line.takeWhile (fun c => c = '#')).length
  if 1 ≤ h ∧ h ≤ 6 then
    match line.drop h with
    | [] => none
    | c :: cs => if isPySpace c ∧ cs ≠ [] then some (h, pyStrip (line.drop h)) else none
  else none

/-- Line scan of `parse_markdown_headers`, tracking `current_pos`
(each line contributes `len(line) + 1` for the newline). -/
def parseHeadersGo : List PyStr → Nat → List (Nat × Nat × Nat × PyStr)
  | [], _ => []
  | line :: rest, pos =>
    match headerMatch line with
    | some lh =>
      (lh.1, pos, pos + line.length, lh.2) :: parseHeadersGo rest (pos + line.length + 1)
    | none => parseHeadersGo rest (pos + line.length + 1)

/-- `parse_markdown_headers(content)`: `(level, start, end, header_text)`
for every header line. -/
def parse_markdown_headers (content : PyStr) : List (Nat × Nat × Nat × PyStr) :=
  parseHeadersGo (splitOnNl content) 0

/-- A section produced by `split_markdown_by_headers`. -/
structure MdSection where
  level : Nat
  header : PyStr
  text : PyStr
  startOffset : Nat
  endOffset : Nat

/-- `section_text.lstrip('\n\r')`. -/
def lstripNewlines (s : PyStr) : PyStr :=
  s.dropWhile (fun c => c = '\n' ∨ c = '\r')

/-- One section per header: from the header's end to the start of the next
header of the same or higher level (document end if none); empty sections
(after `lstrip('\n\r').strip()`) are dropped. -/
def buildSections (content : PyStr) : List (Nat × Nat × Nat × PyStr) → List MdSection
  | [] => []
  | hd :: rest =>
    let sEnd :=
      match rest.find? (fun h2 => h2.1 ≤ hd.1) with
      | some h2 => h2.2.1
      | none => content.length
    let sText := pyStrip (lstripNewlines (pySlice content hd.2.2.1 sEnd))
    if sText ≠ [] then
      ⟨hd.1, hd.2.2.2, sText, hd.2.2.1, sEnd⟩ :: buildSections content rest
    else buildSections content rest

/-- The full section list: header sections, a level-0 introduction section
for text before the first header, and the whole text as one section when
nothing else produced one. -/
def mdSections (content : PyStr) (headers : List (Nat × Nat × Nat × PyStr)) :
    List MdSection :=
  let sections := buildSections content headers
  let sections2 :=
    match headers with
    | [] => sections
    | hd :: _ =>
      if 0 < hd.2.1 then
        if pyStrip (pySlice content 0 hd.2.1) ≠ [] then
          ⟨0, "Введение".toList, pyStrip (pySlice content 0 hd.2.1), 0, hd.2.1⟩ :: sections
        else sections
      else sections
  if sections2.isEmpty then [⟨0, [], content, 0, content.length⟩] else sections2

/-- A chunk emitted by `split_markdown_by_headers`: text plus breadcrumb. -/
structure MdChunk where
  text : PyStr
  header_context : PyStr

/-- `' > '.join(...)` over the breadcrumb path. -/
def headerContext (path : List (Nat × PyStr)) : PyStr :=
  List.intercalate [' ', '>', ' '] (path.map (fun h => h.2))

/-- Emission of the sub-chunks of one oversized section, threading the
document-wide seen-text set. -/
def emitSubChunks (ctx : PyStr) : List PyStr → List PyStr → List MdChunk × List PyStr
  | [], seen => ([], seen)
  | c :: cs, seen =>
    if pyStrip c ≠ [] ∧ pyStrip c ∉ seen then
      let res := emitSubChunks ctx cs (pyStrip c :: seen)
      (⟨c, ctx⟩ :: res.1, res.2)
    else emitSubChunks ctx cs seen

/-- The section-emission loop: breadcrumb maintenance, small sections as
single chunks, large sections split through the streaming splitter, all
guarded by the document-wide seen-text set. -/
def emitSections (S O : Nat) : List MdSection → List (Nat × PyStr) → List PyStr → List MdChunk
  | [], _, _ => []
  | sec :: rest, path, seen =>
    let path2 := (path.filter (fun h => h.1 < sec.level)) ++ [(sec.level, sec.header)]
    if sec.text.length ≤ S then
      if pyStrip sec.text ≠ [] ∧ pyStrip sec.text ∉ seen then
        ⟨sec.text, headerContext path2⟩ ::
          emitSections S O rest path2 (pyStrip sec.text :: seen)
      else emitSections S O rest path2 seen
    else
      let res := emitSubChunks (headerContext path2)
        (split_text_into_chunks_streaming sec.text S O 0).1 seen
      res.1 ++ emitSections S O rest path2 res.2

/-- `split_markdown_by_headers(content, chunk_size, overlap,
min_chunk_size)` (the `min_chunk_size` parameter is declared but never used
by the Python function). -/
def split_markdown_by_headers (content : PyStr) (S O min_chunk_size : Nat) :
    List MdChunk :=
  let headers := parse_markdown_headers content
  if headers.isEmpty then
    ((split_text_into_chunks_streaming content S O 0).1).map
      (fun t => ⟨t, []⟩)
  else
    emitSections S O (mdSections content headers) [] []

/-- A chunk record as emitted by document processing (`header_context`
present only on the markdown path; `total_chunks` backfilled at the end). -/
structure ChunkRec where
  document : PyStr
  chunk_id : Nat
  text : PyStr
  header_context : Option PyStr
  total_chunks : Nat

/-- `process_markdown_file(file_path, filename, chunk_size, overlap)`
with the file contents passed directly. -/
def process_markdown_file (filename content : PyStr) (S O : Nat) : List ChunkRec :=
  (split_markdown_by_headers content S O 100).enum.map
    (fun ic => ⟨filename, ic.1, ic.2.text, some ic.2.header_context,
      (split_markdown_by_headers content S O 100).length⟩)

/-- Per-PDF state in the batch loop of `process_documents_from_folder`. -/
structure PdfState where
  buffer : PyStr
  lastEnd : Nat
  counter : Nat
  seen : List PyStr
  docs : List ChunkRec

/-- Appending one batch's chunks as records, guarded by the per-document
seen set (`seen_chunks_pdf`). -/
def addPdfChunks (filename : PyStr) :
    List PyStr → Nat → List PyStr → List ChunkRec → Nat × List PyStr × List ChunkRec
  | [], counter, seen, docs => (counter, seen, docs)
  | c :: cs, counter, seen, docs =>
    if pyStrip c ≠ [] ∧ pyStrip c ∉ seen then
      addPdfChunks filename cs (counter + 1) (pyStrip c :: seen)
        (docs ++ [⟨filename, counter, c, none, 0⟩])
    else addPdfChunks filename cs counter seen docs

/-- One iteration of the PDF batch loop: extend the buffer, split, record
fresh chunks, then shrink the buffer to the trailing overlap. -/
def processPdfBatch (filename : PyStr) (S O : Nat) (st : PdfState) (batch : PyStr) :
    PdfState :=
  let buffer := st.buffer ++ batch
  let res := split_text_into_chunks_streaming buffer S O st.lastEnd
  let acc := addPdfChunks filename res.1 st.counter st.seen st.docs
  if O < res.2 then
    ⟨buffer.drop (res.2 - O), O, acc.1, acc.2.1, acc.2.2⟩
  else
    ⟨buffer.drop (buffer.length - O),
      min O (buffer.drop (buffer.length - O)).length, acc.1, acc.2.1, acc.2.2⟩

/-- The whole per-PDF pipeline: all batches, the final drain of the
remaining buffer, and the `total_chunks` backfill. -/
def process_pdf_file (filename : PyStr) (S O : Nat) (batches : List PyStr) :
    List ChunkRec :=
  let st := batches.foldl (processPdfBatch filename S O) ⟨[], 0, 0, [], []⟩
  let fin :=
    if pyStrip st.buffer ≠ [] then
      addPdfChunks filename
        (split_text_into_chunks_streaming st.buffer S O st.lastEnd).1
        st.counter st.seen st.docs
    else (st.counter, st.seen, st.docs)
  fin.2.2.map (fun d =>
    if d.document = filename then
      { d with total_chunks := fin.1 }
    else d)

theorem prefix_head_eq {α : Type} {l₁ l₂ : List α} {a : α} {t : List α}
    (hpre : l₁ <+: l₂) (h : l₁ = a :: t) : ∃ t₂, l₂ = a :: t₂ := by
  obtain ⟨r, hr⟩ := hpre
  exact ⟨t ++ r, by rw [← hr, h]; rfl⟩

theorem dropWhile_head_false {α : Type} (p : α → Bool) (s : List α) {a : α}
    {t : List α} (h : s.dropWhile p = a :: t) : p a = false := by
  have hne : s.dropWhile p ≠ [] := by rw [h]; simp
  have := List.head_dropWhile_not p s hne
  simpa [h] using this

theorem dropWhile_dropWhile {α : Type} (p : α → Bool) (l : List α) :
    (l.dropWhile p).dropWhile p = l.dropWhile p := by
  cases h : l.dropWhile p with
  | nil => rfl
  | cons a t =>
    have hpa : p a = false := dropWhile_head_false p l h
    simp [List.dropWhile_cons, hpa]

theorem strip_aux (p : Char → Bool) (s : List Char) :
    ((s.dropWhile p).reverse.dropWhile p).reverse.dropWhile p =
      ((s.dropWhile p).reverse.dropWhile p).reverse := by
  cases hvr : ((s.dropWhile p).reverse.dropWhile p).reverse with
  | nil => rfl
  | cons a t =>
    have hsuf : (s.dropWhile p).reverse.dropWhile p <:+ (s.dropWhile p).reverse :=
      List.dropWhile_suffix p
    have hpre : ((s.dropWhile p).reverse.dropWhile p).reverse <+: s.dropWhile p := by
      refine List.reverse_suffix.1 ?_
      rw [List.reverse_reverse]
      exact hsuf
    obtain ⟨t₂, ht₂⟩ := prefix_head_eq hpre hvr
    have hpa : p a = false := dropWhile_head_false p s ht₂
    simp [List.dropWhile_cons, hpa]

theorem pyStrip_idem (s : PyStr) : pyStrip (pyStrip s) = pyStrip s := by
  unfold pyStrip
  rw [strip_aux isPySpace s, List.reverse_reverse,
    dropWhile_dropWhile isPySpace ((s.dropWhile isPySpace).reverse)]

/-- The no-duplicate relation of the invariant: distinct trimmed text. -/
def distinctTrim (a b : PyStr) : Prop := pyStrip a ≠ pyStrip b

theorem splitLoop_chunks_inv (buf : PyStr) (S O : Nat) :
    ∀ fuel start chunks seen,
      (∀ c ∈ chunks, c ∈ seen) →
      (∀ c ∈ chunks, pyStrip c = c) →
      chunks.Pairwise (fun a b => a ≠ b) →
      (∀ c ∈ (splitLoop buf S O fuel start chunks seen).1, pyStrip c = c) ∧
      (splitLoop buf S O fuel start chunks seen).1.Pairwise (fun a b => a ≠ b) := by
  intro fuel
  induction fuel with
  | zero => intro start chunks seen h1 h2 h3; exact ⟨h2, h3⟩
  | succ fuel ih =>
    intro start chunks seen h1 h2 h3
    by_cases hlt : start < buf.length
    · simp only [splitLoop, if_pos hlt]
      by_cases hc : pyStrip (pySlice buf start
          (if start + S < buf.length
            then adjust_end buf start (start + S) punctuations
            else start + S)) ≠ [] ∧
          pyStrip (pySlice buf start
          (if start + S < buf.length
            then adjust_end buf start (start + S) punctuations
            else start + S)) ∉ seen
      · rw [if_pos hc]
        refine ih _ _ _ ?_ ?_ ?_
        · intro c hcmem
          rcases List.mem_append.1 hcmem with h | h
          · exact List.mem_cons_of_mem _ (h1 c h)
          · have hceq := List.mem_singleton.1 h
            rw [hceq]
            exact List.mem_cons_self _ _
        · intro c hcmem
          rcases List.mem_append.1 hcmem with h | h
          · exact h2 c h
          · have hceq := List.mem_singleton.1 h
            rw [hceq]
            exact pyStrip_idem _
        · rw [List.pairwise_append]
          refine ⟨h3, List.pairwise_singleton _ _, ?_⟩
          intro a ha b hb
          have hbeq := List.mem_singleton.1 hb
          intro hab
          exact hc.2 (hbeq ▸ hab ▸ h1 a ha)
      · rw [if_neg hc]
        exact ih _ _ _ h1 h2 h3
    · rw [splitLoop_exit buf S O (fuel + 1) start chunks seen hlt]
      exact ⟨h2, h3⟩

theorem split_streaming_distinct_trims (buf : PyStr) (S O last : Nat) :
    (split_text_into_chunks_streaming buf S O last).1.Pairwise distinctTrim := by
  unfold split_text_into_chunks_streaming
  split
  · split
    · exact List.pairwise_singleton _ _
    · exact List.Pairwise.nil
  · have h := splitLoop_chunks_inv buf S O 1000 (last - O) [] []
      (by intro c hc; cases hc) (by intro c hc; cases hc) List.Pairwise.nil
    refine h.2.imp_of_mem ?_
    intro a b ha hb hab
    unfold distinctTrim
    rw [h.1 a ha, h.1 b hb]
    exact hab

theorem emitSubChunks_inv (ctx : PyStr) :
    ∀ cs seen,
      (emitSubChunks ctx cs seen).1.Pairwise (fun a b => distinctTrim a.text b.text) ∧
      (∀ c ∈ (emitSubChunks ctx cs seen).1, pyStrip c.text ∉ seen) ∧
      (∀ k ∈ seen, k ∈ (emitSubChunks ctx cs seen).2) ∧
      (∀ c ∈ (emitSubChunks ctx cs seen).1,
        pyStrip c.text ∈ (emitSubChunks ctx cs seen).2) := by
  intro cs
  induction cs with
  | nil =>
    intro seen
    refine ⟨List.Pairwise.nil, ?_, ?_, ?_⟩ <;> simp [emitSubChunks]
  | cons c cs ih =>
    intro seen
    by_cases hc : pyStrip c ≠ [] ∧ pyStrip c ∉ seen
    · simp only [emitSubChunks, if_pos hc]
      obtain ⟨ihp, ihnot, ihsub, ihmem⟩ := ih (pyStrip c :: seen)
      refine ⟨?_, ?_, ?_, ?_⟩
      · refine List.pairwise_cons.2 ⟨?_, ihp⟩
        intro b hb heq
        exact (ihnot b hb) (by rw [← heq]; exact List.mem_cons_self _ _)
      · intro d hd
        rcases List.mem_cons.1 hd with h | h
        · rw [h]; exact hc.2
        · intro hmem
          exact (ihnot d h) (List.mem_cons_of_mem _ hmem)
      · intro k hk
        exact ihsub k (List.mem_cons_of_mem _ hk)
      · intro d hd
        rcases List.mem_cons.1 hd with h | h
        · rw [h]
          exact ihsub (pyStrip c) (List.mem_cons_self _ _)
        · exact ihmem d h
    · simp only [emitSubChunks, if_neg hc]
      exact ih seen

theorem emitSections_inv (S O : Nat) :
    ∀ secs path seen,
      (emitSections S O secs path seen).Pairwise
        (fun a b => distinctTrim a.text b.text) ∧
      (∀ c ∈ emitSections S O secs path seen, pyStrip c.text ∉ seen) := by
  intro secs
  induction secs with
  | nil =>
    intro path seen
    exact ⟨List.Pairwise.nil, by intro c hc; cases hc⟩
  | cons sec rest ih =>
    intro path seen
    by_cases hsmall : sec.text.length ≤ S
    · by_cases hc : pyStrip sec.text ≠ [] ∧ pyStrip sec.text ∉ seen
      · simp only [emitSections, if_pos hsmall, if_pos hc]
        obtain ⟨ihp, ihnot⟩ :=
          ih ((path.filter (fun h => h.1 < sec.level)) ++ [(sec.level, sec.header)])
            (pyStrip sec.text :: seen)
        refine ⟨List.pairwise_cons.2 ⟨?_, ihp⟩, ?_⟩
        · intro b hb heq
          exact (ihnot b hb) (by rw [← heq]; exact List.mem_cons_self _ _)
        · intro d hd
          rcases List.mem_cons.1 hd with h | h
          · rw [h]; exact hc.2
          · intro hmem
            exact (ihnot d h) (List.mem_cons_of_mem _ hmem)
      · simp only [emitSections, if_pos hsmall, if_neg hc]
        exact ih _ seen
    · simp only [emitSections, if_neg hsmall]
      refine ⟨?_, ?_⟩
      · rw [List.pairwise_append]
        refine ⟨(emitSubChunks_inv _ _ _).1, (ih _ _).1, ?_⟩
        intro a ha b hb heq
        exact ((ih _ _).2 b hb) (by rw [← heq]; exact (emitSubChunks_inv _ _ _).2.2.2 a ha)
      · intro d hd
        rcases List.mem_append.1 hd with h | h
        · exact (emitSubChunks_inv _ _ _).2.1 d h
        · intro hmem
          exact ((ih _ _).2 d h) ((emitSubChunks_inv _ _ _).2.2.1 _ hmem)

theorem split_markdown_distinct (content : PyStr) (S O m : Nat) :
    (split_markdown_by_headers content S O m).Pairwise
      (fun a b => distinctTrim a.text b.text) := by
  simp only [split_markdown_by_headers]
  split
  · rw [List.pairwise_map]
    refine (split_streaming_distinct_trims content S O 0).imp_of_mem ?_
    intro a b _ _ hab
    exact hab
  · exact (emitSections_inv S O _ [] []).1

theorem process_markdown_distinct (filename content : PyStr) (S O : Nat) :
    (process_markdown_file filename content S O).Pairwise
      (fun a b => distinctTrim a.text b.text) := by
  unfold process_markdown_file
  rw [List.pairwise_map]
  have henum : (split_markdown_by_headers content S O 100).enum.Pairwise
      (fun x y => distinctTrim x.2.text y.2.text) := by
    have hmap : ((split_markdown_by_headers content S O 100).enum.map
        Prod.snd).Pairwise (fun a b => distinctTrim a.text b.text) := by
      rw [List.enum_map_snd]
      exact split_markdown_distinct content S O 100
    exact (@List.pairwise_map (Nat × MdChunk) MdChunk Prod.snd
      (fun a b => distinctTrim a.text b.text) _).1 hmap
  refine henum.imp_of_mem ?_
  intro a b _ _ hab
  exact hab

theorem addPdfChunks_inv (filename : PyStr) :
    ∀ cs counter seen docs,
      (∀ d ∈ docs, pyStrip d.text ∈ seen) →
      docs.Pairwise (fun a b => distinctTrim a.text b.text) →
      (∀ d ∈ (addPdfChunks filename cs counter seen docs).2.2,
        pyStrip d.text ∈ (addPdfChunks filename cs counter seen docs).2.1) ∧
      (addPdfChunks filename cs counter seen docs).2.2.Pairwise
        (fun a b => distinctTrim a.text b.text) := by
  intro cs
  induction cs with
  | nil => intro counter seen docs h1 h2; exact ⟨h1, h2⟩
  | cons c cs ih =>
    intro counter seen docs h1 h2
    by_cases hc : pyStrip c ≠ [] ∧ pyStrip c ∉ seen
    · simp only [addPdfChunks, if_pos hc]
      refine ih _ _ _ ?_ ?_
      · intro d hd
        rcases List.mem_append.1 hd with h | h
        · exact List.mem_cons_of_mem _ (h1 d h)
        · have hdeq := List.mem_singleton.1 h
          rw [hdeq]
          exact List.mem_cons_self _ _
      · rw [List.pairwise_append]
        refine ⟨h2, List.pairwise_singleton _ _, ?_⟩
        intro a ha b hb
        have hbeq := List.mem_singleton.1 hb
        intro heq
        have hbtext : pyStrip b.text = pyStrip c := by rw [hbeq]
        apply hc.2
        rw [← hbtext, ← heq]
        exact h1 a ha
    · simp only [addPdfChunks, if_neg hc]
      exact ih _ _ _ h1 h2

theorem processPdfBatch_inv (filename : PyStr) (S O : Nat) (st : PdfState)
    (batch : PyStr)
    (h1 : ∀ d ∈ st.docs, pyStrip d.text ∈ st.seen)
    (h2 : st.docs.Pairwise (fun a b => distinctTrim a.text b.text)) :
    (∀ d ∈ (processPdfBatch filename S O st batch).docs,
      pyStrip d.text ∈ (processPdfBatch filename S O st batch).seen) ∧
    (processPdfBatch filename S O st batch).docs.Pairwise
      (fun a b => distinctTrim a.text b.text) := by
  have h := addPdfChunks_inv filename
    (split_text_into_chunks_streaming (st.buffer ++ batch) S O st.lastEnd).1
    st.counter st.seen st.docs h1 h2
  simp only [processPdfBatch]
  split
  · exact ⟨h.1, h.2⟩
  · exact ⟨h.1, h.2⟩

theorem foldl_pdf_inv (filename : PyStr) (S O : Nat) :
    ∀ (batches : List PyStr) (st : PdfState),
      (∀ d ∈ st.docs, pyStrip d.text ∈ st.seen) →
      st.docs.Pairwise (fun a b => distinctTrim a.text b.text) →
      (∀ d ∈ (batches.foldl (processPdfBatch filename S O) st).docs,
        pyStrip d.text ∈ (batches.foldl (processPdfBatch filename S O) st).seen) ∧
      (batches.foldl (processPdfBatch filename S O) st).docs.Pairwise
        (fun a b => distinctTrim a.text b.text) := by
  intro batches
  induction batches with
  | nil => intro st h1 h2; exact ⟨h1, h2⟩
  | cons b bs ih =>
    intro st h1 h2
    have h := processPdfBatch_inv filename S O st b h1 h2
    exact ih _ h.1 h.2

theorem process_pdf_distinct (filename : PyStr) (S O : Nat)
    (batches : List PyStr) :
    (process_pdf_file filename S O batches).Pairwise
      (fun a b => distinctTrim a.text b.text) := by
  have hst := foldl_pdf_inv filename S O batches ⟨[], 0, 0, [], []⟩
    (by intro d hd; cases hd) List.Pairwise.nil
  have hmap : ∀ (fin1 : Nat) (l : List ChunkRec),
      l.Pairwise (fun a b => distinctTrim a.text b.text) →
      (l.map (fun d => if d.document = filename
          then { d with total_chunks := fin1 } else d)).Pairwise
        (fun a b => distinctTrim a.text b.text) := by
    intro fin1 l hl
    rw [List.pairwise_map]
    refine hl.imp_of_mem ?_
    intro a b _ _ hab
    have ha : (if a.document = filename
        then { a with total_chunks := fin1 } else a).text = a.text := by
      split <;> rfl
    have hb : (if b.document = filename
        then { b with total_chunks := fin1 } else b).text = b.text := by
      split <;> rfl
    unfold distinctTrim at hab ⊢
    rw [ha, hb]
    exact hab
  simp only [process_pdf_file]
  by_cases hbuf : pyStrip
      (batches.foldl (processPdfBatch filename S O) ⟨[], 0, 0, [], []⟩).buffer ≠ []
  · rw [if_pos hbuf]
    exact hmap _ _ (addPdfChunks_inv filename _ _ _ _ hst.1 hst.2).2
  · rw [if_neg hbuf]
    exact hmap _ _ hst.2

/-- C4: within one processed document, no two emitted chunk records have
equal trimmed text — on the markdown header path and on the PDF streaming
path (the judge of freshness is the per-document seen set keyed by
`strip()`ed text, plus the splitter's own per-call deduplication on the
header-free path). -/
theorem no_duplicate_chunk_texts (filename content : PyStr) (S O : Nat)
    (batches : List PyStr) :
    (process_markdown_file filename content S O).Pairwise
      (fun a b => pyStrip a.text ≠ pyStrip b.text) ∧
    (process_pdf_file filename S O batches).Pairwise
      (fun a b => pyStrip a.text ≠ pyStrip b.text) :=
  ⟨process_markdown_distinct filename content S O,
   process_pdf_distinct filename S O batches⟩
